import Mathlib

/-!
Verification of the NPU benchmark driver (`src/main.cpp`) against its design
specification.  The C++ code is shallowly embedded: machine integers become
`Nat` with explicit `% 2 ^ w` where overflow matters, float values that are
only moved or compared (never arithmetically combined) are modelled as `ℚ`,
and the straight-line hardware protocol of the per-sample loop is modelled as
an explicit event trace.
-/

namespace NPU

/-! ### Instruction encoder (main.cpp lines 87-90)

`uint64_t instruction = (layer_input_shape << 34) + (layer_output_shape << 4)
 + activation_cast;` with all operands `uint64_t`. -/

def instructionWord (layer_input_shape layer_output_shape activation : ℕ) : ℕ :=
  ((layer_input_shape <<< 34) + (layer_output_shape <<< 4) + activation) % 2 ^ 64

/-- Decoding by the documented bit layout: bits 63..34 hold `inputWidth`,
bits 33..4 hold `outputWidth`, bits 3..0 hold the activation code. -/
def decodeInstruction (instruction : ℕ) : ℕ × ℕ × ℕ :=
  ((instruction >>> 34) % 2 ^ 30, (instruction >>> 4) % 2 ^ 30, instruction % 2 ^ 4)

/-! ### Busy-poll status predicate (main.cpp lines 169-183, 193-207, 217-231, 239-253)

Each do-while loop continues while
`!(status & 1<<0) && !(status & 1<<1) && !(status & 1<<4) &&
 !(status & 1<<12) && !(status & 1<<14)`. -/

def pollContinue (status : ℕ) : Bool :=
  (status &&& (1 <<< 0) == 0) && (status &&& (1 <<< 1) == 0) &&
  (status &&& (1 <<< 4) == 0) && (status &&& (1 <<< 12) == 0) &&
  (status &&& (1 <<< 14) == 0)

/-- Fuel-bounded model of one busy-poll do-while loop: the body reads the
status register (iteration `k` observes `f k`), then the loop exits when
`pollContinue` is false, returning the observed status. -/
def busyPoll (f : ℕ → ℕ) : ℕ → ℕ → Option ℕ
  | _, 0 => none
  | k, fuel + 1 =>
    if pollContinue (f k) then busyPoll f (k + 1) fuel else some (f k)

/-! ### Classification (main.cpp lines 264-272, 298)

`std::max_element` keeps the current best and replaces it only on a strictly
greater element, so the first occurrence of the maximum wins. -/

def maxElemAux : List ℚ → ℕ → ℚ → ℕ → ℕ × ℚ
  | [], bi, bv, _ => (bi, bv)
  | x :: xs, bi, bv, i =>
    if bv < x then maxElemAux xs i x (i + 1) else maxElemAux xs bi bv (i + 1)

/-- `maxElementIndex = std::max_element(results.begin(), results.end()) -
results.begin()`; on the empty list the iterator difference is 0. -/
def maxElementIndex : List ℚ → ℕ
  | [] => 0
  | x :: xs => (maxElemAux xs 0 x 1).1

/-- The accuracy counter loop: `if (maxElementIndex == (int)output[n])
correct_classification++;` folded over the dataset, each sample being its
output vector paired with its label. -/
def correct_classification (samples : List (List ℚ × ℕ)) : ℕ :=
  samples.foldl (fun acc s => if maxElementIndex s.1 = s.2 then acc + 1 else acc) 0

/-- `(float)correct_classification / (float)dataset["x"].shape[0]`, the
reported accuracy fraction (modelled exactly in `ℚ`). -/
def accuracy (samples : List (List ℚ × ℕ)) : ℚ :=
  (correct_classification samples : ℚ) / (samples.length : ℚ)

/-! ### Activation extraction (main.cpp lines 69-85)

`std::regex re("a\\d+\\_([a-z]+)\\_\\d+"); std::regex_search(it->first, match,
re); std::string result = match.str(1);` then an if-chain maps the captured
name to a code.  The character classes `\d`, `[a-z]` and the literal `_` are
pairwise disjoint, so the greedy ECMAScript engine never backtracks on this
pattern and leftmost maximal-munch matching is exact. -/

/-- Consume one literal `_` character. -/
def expectUnderscore (s : List Char) : Option (List Char) :=
  match s with
  | [] => none
  | c :: rest => if c = '_' then some rest else none

/-- Attempt to match `a\d+_([a-z]+)_\d+` at the head of the string, returning
the captured `[a-z]+` group. -/
def matchActivationAt (s : List Char) : Option (List Char) :=
  match s with
  | [] => none
  | c :: rest =>
    if c = 'a' then
      if (rest.takeWhile Char.isDigit).isEmpty then none
      else
        match expectUnderscore (rest.dropWhile Char.isDigit) with
        | none => none
        | some r2 =>
          if (r2.takeWhile Char.isLower).isEmpty then none
          else
            match expectUnderscore (r2.dropWhile Char.isLower) with
            | none => none
            | some r4 =>
              if (r4.takeWhile Char.isDigit).isEmpty then none
              else some (r2.takeWhile Char.isLower)
    else none

/-- `std::regex_search`: the match at the leftmost feasible start position. -/
def regexSearchActivation : List Char → Option (List Char)
  | [] => none
  | c :: rest =>
    match matchActivationAt (c :: rest) with
    | some g => some g
    | none => regexSearchActivation rest

/-- Lines 72-85: `match.str(1)` is the captured group, or the empty string
when the search failed; the if-chain maps `sigmoid→1, relu→2, softmax→3`,
anything else stays at the initialization value 0. -/
def activationOf (name : List Char) : ℕ :=
  let result := (regexSearchActivation name).getD []
  if result = "sigmoid".toList then 1
  else if result = "relu".toList then 2
  else if result = "softmax".toList then 3
  else 0

/-! ### Mapped source buffers

Modelled from the spec: the repository's `dma.hpp` (the `DirectMemoryAccess`
class with `writeSourceUInt64`, `writeSourceFloat`, `resetCursor`,
`getCursor`) is not among the sources, so the buffer behaviour is taken from
spec section 4.1: a write appends one element at the cursor and advances it,
`resetCursor` sets the cursor to 0 without clearing memory content, and the
cursor reports how many bytes were written (here tracked in elements, with
the byte count derived as elementSize * cursor).  Region-bound checking is
not modelled: per spec sections 7 and 9 the original design does not enforce
it. -/
structure SrcBuffer (α : Type) where
  content : ℕ → α
  cursor : ℕ

def SrcBuffer.write {α : Type} (b : SrcBuffer α) (x : α) : SrcBuffer α :=
  ⟨Function.update b.content b.cursor x, b.cursor + 1⟩

def SrcBuffer.writeList {α : Type} (b : SrcBuffer α) (xs : List α) : SrcBuffer α :=
  xs.foldl SrcBuffer.write b

def SrcBuffer.resetCursor {α : Type} (b : SrcBuffer α) : SrcBuffer α :=
  ⟨b.content, 0⟩

/-- The sequence of elements a transfer armed with length `cursor` sends. -/
def SrcBuffer.stream {α : Type} (b : SrcBuffer α) : List α :=
  (List.range b.cursor).map b.content

/-! ### Weight tiler (main.cpp lines 96-107) -/

/-- The offsets visited by `for (size_t offset = 0; offset < shape1; offset
+= core)`; guarded on `0 < core` so the model is total (the C++ loop does
not terminate when `core = 0`). -/
def tileOffsets (core outW offset : ℕ) : List ℕ :=
  if h : offset < outW ∧ 0 < core then offset :: tileOffsets core outW (offset + core)
  else []
termination_by outW - offset
decreasing_by omega

/-- `range = std::min(std::min(core, shape1), shape1 - offset)` (line 99). -/
def blockRange (core outW offset : ℕ) : ℕ :=
  min (min core outW) (outW - offset)

/-- The flat matrix indices `node * shape1 + offset + i` read by the three
nested loops of lines 97-107, in emission order. -/
def tileIndices (core inW outW : ℕ) : List ℕ :=
  (tileOffsets core outW 0).flatMap fun offset =>
    (List.range inW).flatMap fun node =>
      (List.range (blockRange core outW offset)).map fun i =>
        node * outW + offset + i

/-- The tiled weight stream written to the weight channel. -/
def tileWeights (core inW outW : ℕ) (data : ℕ → ℚ) : List ℚ :=
  (tileIndices core inW outW).map data

/-! ### Orchestrator state (main.cpp lines 53-132) -/

/-- One entry of `layers.npz`: its identifier, its shape pair, and its
row-major weight data (`data[node * shape1 + col]`). -/
structure Layer where
  name : List Char
  shape0 : ℕ
  shape1 : ℕ
  data : ℕ → ℚ

/-- Lines 69-90: the instruction word of one layer. -/
def encodeLayer (l : Layer) : ℕ :=
  instructionWord l.shape0 l.shape1 (activationOf l.name)

structure DriverState where
  config : SrcBuffer ℕ
  weight : SrcBuffer ℚ
  ioSrc : SrcBuffer ℚ
  ioDst : ℕ → ℕ
  dst_length : ℕ

/-- One iteration of the layer loop (lines 61-108): write the instruction
word, remember `shape1` as the destination length, write the tiled weights. -/
def loadLayer (core : ℕ) (st : DriverState) (l : Layer) : DriverState :=
  { st with
    config := st.config.write (encodeLayer l)
    dst_length := l.shape1
    weight := st.weight.writeList (tileWeights core l.shape0 l.shape1 l.data) }

/-- Lines 57-108: write the layer count (`uint64_t`, hence mod `2 ^ 64`),
then load every layer. -/
def setup (core : ℕ) (layers : List Layer) (st : DriverState) : DriverState :=
  layers.foldl (loadLayer core)
    { st with config := st.config.write (layers.length % 2 ^ 64) }

/-- Line 111: `memset((void *)io->getDestinationAddress(), 0, dst_length *
4)` — zero the first `dst_length * 4` destination bytes. -/
def memsetDst (st : DriverState) : DriverState :=
  { st with ioDst := fun i => if i < st.dst_length * 4 then 0 else st.ioDst i }

/-- The state before the sample loop: freshly constructed buffers (cursor 0,
memory content unspecified, modelled as zeros). -/
def initState : DriverState :=
  { config := ⟨fun _ => 0, 0⟩, weight := ⟨fun _ => 0, 0⟩,
    ioSrc := ⟨fun _ => 0, 0⟩, ioDst := fun _ => 0, dst_length := 0 }

/-- What one sample iteration arms on each channel: the byte length written
to the length register (`getCursor()`) and the element stream the armed
transfer sends. -/
structure SampleObs where
  configLen : ℕ
  configData : List ℕ
  weightLen : ℕ
  weightData : List ℚ
  ioLen : ℕ
  ioData : List ℚ

/-- The buffer-relevant effect of one sample-loop iteration (lines 119-291):
reset the I/O source cursor, write the sample's input floats, then arm each
channel with its current cursor as the source length.  Register-protocol
calls touch control registers only, never the source buffers. -/
def sampleStep (st : DriverState) (x : List ℚ) : DriverState × SampleObs :=
  let io2 := st.ioSrc.resetCursor.writeList x
  ({ st with ioSrc := io2 },
   { configLen := 8 * st.config.cursor, configData := st.config.stream,
     weightLen := 4 * st.weight.cursor, weightData := st.weight.stream,
     ioLen := 4 * io2.cursor, ioData := io2.stream })

/-- The sample loop (lines 119-291), collecting each iteration's armed
transfers. -/
def processSamples (st : DriverState) : List (List ℚ) → DriverState × List SampleObs
  | [] => (st, [])
  | x :: xs =>
    let step := sampleStep st x
    let rest := processSamples step.1 xs
    (rest.1, step.2 :: rest.2)

/-- The whole driver run: one-time setup, destination zero-fill, then the
sample loop. -/
def runAll (core : ℕ) (layers : List Layer) (samples : List (List ℚ)) :
    DriverState × List SampleObs :=
  processSamples (memsetDst (setup core layers initState)) samples

/-! ### Per-sample register protocol trace (main.cpp lines 142-253) -/

inductive Chan | config | weight | io
deriving DecidableEq

inductive Ev where
  | reset (c : Chan)
  | halt (c : Chan)
  | setInterrupt (c : Chan) (complete error : Bool) (threshold : ℕ)
  | ready (c : Chan)
  | setDestAddr (c : Chan)
  | setDestLen (c : Chan)
  | setSrcAddr (c : Chan)
  | setSrcLen (c : Chan)
  | pollMM2S (c : Chan)
  | pollS2MM (c : Chan)
deriving DecidableEq

/-- The straight-line sequence of register-protocol operations one sample
iteration performs (lines 142-253), in source order.  Each busy-poll loop is
one `poll` event (its completion is the loop's exit). -/
def sampleTrace : List Ev :=
  [.reset .config, .halt .config, .setInterrupt .config true true 0, .ready .config,
   .reset .weight, .halt .weight, .setInterrupt .weight true true 0, .ready .weight,
   .reset .io, .halt .io, .setInterrupt .io true true 0, .ready .io,
   .setDestAddr .io, .setDestLen .io,
   .setSrcAddr .config, .setSrcLen .config, .pollMM2S .config,
   .setSrcAddr .io, .setSrcLen .io, .pollMM2S .io,
   .setSrcAddr .weight, .setSrcLen .weight, .pollMM2S .weight,
   .pollS2MM .io]

/-- `occursBefore a b`: event `a` is performed strictly before event `b` in
one sample iteration. -/
def occursBefore (a b : Ev) : Prop :=
  a ∈ sampleTrace ∧ b ∈ sampleTrace ∧ sampleTrace.indexOf a < sampleTrace.indexOf b

instance (a b : Ev) : Decidable (occursBefore a b) := by
  unfold occursBefore
  infer_instance

end NPU

namespace NPU

/-! ### Supporting lemmas -/

theorem and_one_shiftLeft_eq_zero (n k : ℕ) :
    (n &&& (1 <<< k) == 0) = !(n.testBit k) := by
  rw [Nat.one_shiftLeft, Nat.and_two_pow]
  have hpow : (2 : ℕ) ^ k ≠ 0 := (Nat.pos_pow_of_pos k (by norm_num)).ne'
  cases h : n.testBit k <;> simp [h, hpow]

theorem maxElemAux_spec (l : List ℚ) : ∀ (xs : List ℚ) (bi : ℕ) (bv : ℚ) (i : ℕ),
    (∀ k, k < xs.length → l.get? (i + k) = xs.get? k) →
    l.get? bi = some bv →
    bi < i →
    (∀ j w, j < i → l.get? j = some w → w ≤ bv) →
    (∀ j w, j < bi → l.get? j = some w → w < bv) →
    l.get? (maxElemAux xs bi bv i).1 = some (maxElemAux xs bi bv i).2 ∧
    (maxElemAux xs bi bv i).1 < i + xs.length ∧
    (∀ j w, j < i + xs.length → l.get? j = some w → w ≤ (maxElemAux xs bi bv i).2) ∧
    (∀ j w, j < (maxElemAux xs bi bv i).1 → l.get? j = some w →
      w < (maxElemAux xs bi bv i).2) := by
  intro xs
  induction xs with
  | nil =>
    intro bi bv i hctx hget hbi hle hlt
    refine ⟨hget, by simpa using Nat.lt_of_lt_of_le hbi (Nat.le_add_right i 0), ?_, ?_⟩
    · intro j w hj hw
      exact hle j w (by simpa using hj) hw
    · intro j w hj hw
      exact hlt j w hj hw
  | cons x xs ih =>
    intro bi bv i hctx hget hbi hle hlt
    have hx : l.get? i = some x := by
      have := hctx 0 (by simp)
      simpa using this
    by_cases hcmp : bv < x
    · have hctx' : ∀ k, k < xs.length → l.get? (i + 1 + k) = xs.get? k := by
        intro k hk
        have := hctx (k + 1) (by simpa using Nat.succ_lt_succ hk)
        have harith : i + (k + 1) = i + 1 + k := by omega
        simpa [harith] using this
      have hle' : ∀ j w, j < i + 1 → l.get? j = some w → w ≤ x := by
        intro j w hj hw
        rcases Nat.lt_or_ge j i with hji | hji
        · exact le_of_lt (lt_of_le_of_lt (hle j w hji hw) hcmp)
        · have : j = i := by omega
          subst this
          rw [hx] at hw
          exact le_of_eq (Option.some_inj.mp hw).symm
      have hlt' : ∀ j w, j < i → l.get? j = some w → w < x := by
        intro j w hj hw
        exact lt_of_le_of_lt (hle j w hj hw) hcmp
      have := ih i x (i + 1) hctx' hx (Nat.lt_succ_self i) hle' hlt'
      simp only [maxElemAux, if_pos hcmp]
      refine ⟨this.1, ?_, ?_, this.2.2.2⟩
      · have := this.2.1
        simpa [Nat.add_comm, Nat.add_assoc, Nat.add_left_comm] using this
      · intro j w hj hw
        refine this.2.2.1 j w ?_ hw
        simp only [List.length_cons] at hj
        omega
    · have hxle : x ≤ bv := le_of_not_lt hcmp
      have hctx' : ∀ k, k < xs.length → l.get? (i + 1 + k) = xs.get? k := by
        intro k hk
        have := hctx (k + 1) (by simpa using Nat.succ_lt_succ hk)
        have harith : i + (k + 1) = i + 1 + k := by omega
        simpa [harith] using this
      have hle' : ∀ j w, j < i + 1 → l.get? j = some w → w ≤ bv := by
        intro j w hj hw
        rcases Nat.lt_or_ge j i with hji | hji
        · exact hle j w hji hw
        · have : j = i := by omega
          subst this
          rw [hx] at hw
          exact (Option.some_inj.mp hw) ▸ hxle
      have := ih bi bv (i + 1) hctx' hget (Nat.lt_succ_of_lt hbi) hle' hlt
      simp only [maxElemAux, if_neg hcmp]
      refine ⟨this.1, ?_, ?_, this.2.2.2⟩
      · have := this.2.1
        simp only [List.length_cons]
        omega
      · intro j w hj hw
        refine this.2.2.1 j w ?_ hw
        simp only [List.length_cons] at hj
        omega

theorem SrcBuffer.stream_write {α : Type} (b : SrcBuffer α) (x : α) :
    (b.write x).stream = b.stream ++ [x] := by
  unfold SrcBuffer.stream SrcBuffer.write
  rw [List.range_succ, List.map_append]
  simp only [List.map_cons, List.map_nil, Function.update_same]
  congr 1
  apply List.map_congr_left
  intro k hk
  exact Function.update_noteq (Nat.ne_of_lt (List.mem_range.mp hk)) x b.content

theorem SrcBuffer.stream_writeList {α : Type} (xs : List α) : ∀ b : SrcBuffer α,
    (b.writeList xs).stream = b.stream ++ xs := by
  induction xs with
  | nil => intro b; simp [SrcBuffer.writeList]
  | cons x xs ih =>
    intro b
    show (SrcBuffer.writeList (b.write x) xs).stream = _
    rw [ih, SrcBuffer.stream_write]
    simp

theorem SrcBuffer.cursor_writeList {α : Type} (xs : List α) : ∀ b : SrcBuffer α,
    (b.writeList xs).cursor = b.cursor + xs.length := by
  induction xs with
  | nil => intro b; simp [SrcBuffer.writeList]
  | cons x xs ih =>
    intro b
    show (SrcBuffer.writeList (b.write x) xs).cursor = _
    rw [ih]
    simp [SrcBuffer.write]
    omega

theorem foldl_loadLayer_config (core : ℕ) (layers : List Layer) : ∀ st : DriverState,
    (layers.foldl (loadLayer core) st).config.stream =
      st.config.stream ++ layers.map encodeLayer := by
  induction layers with
  | nil => intro st; simp
  | cons l ls ih =>
    intro st
    rw [List.foldl_cons, ih]
    show (st.config.write (encodeLayer l)).stream ++ _ = _
    rw [SrcBuffer.stream_write]
    simp

theorem foldl_loadLayer_weight (core : ℕ) (layers : List Layer) : ∀ st : DriverState,
    (layers.foldl (loadLayer core) st).weight.stream =
      st.weight.stream ++
        layers.flatMap (fun l => tileWeights core l.shape0 l.shape1 l.data) := by
  induction layers with
  | nil => intro st; simp
  | cons l ls ih =>
    intro st
    rw [List.foldl_cons, ih]
    show (st.weight.writeList (tileWeights core l.shape0 l.shape1 l.data)).stream ++ _ = _
    rw [SrcBuffer.stream_writeList]
    simp

theorem foldl_loadLayer_dst (core : ℕ) : ∀ (layers : List Layer) (st : DriverState)
    (h : layers ≠ []),
    (layers.foldl (loadLayer core) st).dst_length = (layers.getLast h).shape1 := by
  intro layers
  induction layers with
  | nil => intro st h; exact absurd rfl h
  | cons l ls ih =>
    intro st _
    match ls, ih with
    | [], _ => rfl
    | l' :: ls', ih =>
      rw [List.foldl_cons, ih (loadLayer core st l) (by simp)]
      congr 1

theorem flatMap_const_nil {α β : Type} : ∀ l : List α,
    (l.flatMap fun _ => ([] : List β)) = [] := by
  intro l
  induction l with
  | nil => rfl
  | cons x xs ih => simp [List.flatMap_cons, ih]

theorem flatMap_single {α β : Type} (g : β → α) : ∀ l : List β,
    (l.flatMap fun b => [g b]) = l.map g := by
  intro l
  induction l with
  | nil => rfl
  | cons x xs ih => simp [List.flatMap_cons, ih]

/-- Interchanging two nested loops permutes the emitted stream. -/
theorem flatMap_range_swap {α : Type} (n : ℕ) (f : ℕ → ℕ → α) : ∀ m : ℕ,
    ((List.range m).flatMap fun a => (List.range n).map (f a)).Perm
      ((List.range n).flatMap fun b => (List.range m).map fun a => f a b) := by
  intro m
  induction m with
  | zero => simp [flatMap_const_nil]
  | succ m ih =>
    rw [List.range_succ, List.flatMap_append]
    have hsum : ([m].flatMap fun a => (List.range n).map (f a)) =
        (List.range n).map (f m) := by
      simp
    rw [hsum]
    have hr : ((List.range n).flatMap fun b => (List.range m ++ [m]).map fun a => f a b) =
        (List.range n).flatMap fun b =>
          ((List.range m).map fun a => f a b) ++ [f m b] := by
      apply congrArg
      funext b
      rw [List.map_append]
      rfl
    rw [hr]
    refine (ih.append_right _).trans ?_
    rw [← flatMap_single (fun b => f m b) (List.range n)]
    exact List.flatMap_append_perm _ _ _

/-- The offset loop's blocks of columns tile `[offset, outW)` contiguously. -/
theorem tileOffsets_cover (core outW : ℕ) (hc : 0 < core) : ∀ (n offset : ℕ),
    outW - offset = n →
    ((tileOffsets core outW offset).flatMap fun o =>
      List.range' o (blockRange core outW o)) = List.range' offset (outW - offset) := by
  intro n
  induction n using Nat.strong_induction_on with
  | _ n ih =>
    intro offset hn
    by_cases h : offset < outW
    · rw [tileOffsets, dif_pos ⟨h, hc⟩, List.flatMap_cons,
        ih (outW - (offset + core)) (by omega) (offset + core) rfl]
      by_cases h2 : offset + core ≤ outW
      · have hbr : blockRange core outW offset = core := by
          unfold blockRange
          omega
        rw [hbr]
        have happ := List.range'_append offset core (outW - (offset + core)) 1
        simp only [one_mul] at happ
        rw [happ]
        congr 1
        omega
      · have hbr : blockRange core outW offset = outW - offset := by
          unfold blockRange
          omega
        have hnil : outW - (offset + core) = 0 := by omega
        rw [hbr, hnil]
        simp
    · rw [tileOffsets, dif_neg (by omega)]
      simp [show outW - offset = 0 by omega]

/-- One offset block, emitted row-by-row, is a permutation of the full
columns `[offset, offset + range)` emitted column-by-column. -/
theorem tileBlock_perm (inW outW offset r : ℕ) :
    ((List.range inW).flatMap fun node =>
        (List.range r).map fun i => node * outW + offset + i).Perm
      ((List.range' offset r).flatMap fun c =>
        (List.range inW).map fun node => node * outW + c) := by
  refine (flatMap_range_swap r (fun node i => node * outW + offset + i) inW).trans ?_
  rw [List.range'_eq_map_range, List.flatMap_map]
  have hcong : ∀ i : ℕ, ((List.range inW).map fun node => node * outW + offset + i) =
      (List.range inW).map fun node => node * outW + (offset + i) := by
    intro i
    apply List.map_congr_left
    intro node _
    omega
  simp only [hcong]
  exact List.Perm.refl _

theorem flatMap_range_mul (outW : ℕ) : ∀ inW : ℕ,
    ((List.range inW).flatMap fun node => (List.range outW).map fun c => node * outW + c) =
      List.range (inW * outW) := by
  intro inW
  induction inW with
  | zero => simp
  | succ m ih =>
    rw [List.range_succ, List.flatMap_append, ih]
    have hmul : (m + 1) * outW = m * outW + outW := by ring
    rw [hmul, List.range_add]
    congr 1
    simp

/-- The tiler reads each matrix cell exactly once: its index stream is a
permutation of `0, ..., inW * outW - 1`. -/
theorem tileIndices_perm (core inW outW : ℕ) (hc : 0 < core) :
    (tileIndices core inW outW).Perm (List.range (inW * outW)) := by
  unfold tileIndices
  have h1 : ((tileOffsets core outW 0).flatMap fun offset =>
      (List.range inW).flatMap fun node =>
        (List.range (blockRange core outW offset)).map fun i =>
          node * outW + offset + i).Perm
      ((tileOffsets core outW 0).flatMap fun offset =>
        (List.range' offset (blockRange core outW offset)).flatMap fun c =>
          (List.range inW).map fun node => node * outW + c) :=
    List.Perm.flatMap_left _ (fun offset _ => tileBlock_perm inW outW offset _)
  refine h1.trans ?_
  rw [← List.flatMap_assoc, tileOffsets_cover core outW hc (outW - 0) 0 rfl,
    Nat.sub_zero, ← List.range_eq_range', ← flatMap_range_mul outW inW]
  exact flatMap_range_swap inW (fun c node => node * outW + c) outW

theorem takeWhile_dropWhile_exact (p : Char → Bool) : ∀ (l t : List Char),
    (∀ c ∈ l, p c = true) → (∀ c, t.head? = some c → p c = false) →
    (l ++ t).takeWhile p = l ∧ (l ++ t).dropWhile p = t := by
  intro l
  induction l with
  | nil =>
    intro t _ ht
    cases t with
    | nil => simp
    | cons c t' =>
      have hc := ht c rfl
      simp [List.takeWhile_cons, List.dropWhile_cons, hc]
  | cons c l' ih =>
    intro t hl ht
    have hc : p c = true := hl c (by simp)
    have hrest := ih t (fun d hd => hl d (by simp [hd])) ht
    simp [List.takeWhile_cons, List.dropWhile_cons, hc, hrest.1, hrest.2]

theorem matchActivationAt_pattern (d1 nm d2 : List Char)
    (h1 : d1 ≠ []) (hd1 : ∀ c ∈ d1, c.isDigit = true)
    (h2 : nm ≠ []) (hnm : ∀ c ∈ nm, c.isLower = true)
    (h3 : d2 ≠ []) (hd2 : ∀ c ∈ d2, c.isDigit = true) :
    matchActivationAt ('a' :: (d1 ++ '_' :: (nm ++ '_' :: d2))) = some nm := by
  have hs1 := takeWhile_dropWhile_exact Char.isDigit d1 ('_' :: (nm ++ '_' :: d2)) hd1
    (by intro c hc; injection hc with h; subst h; decide)
  have hs2 := takeWhile_dropWhile_exact Char.isLower nm ('_' :: d2) hnm
    (by intro c hc; injection hc with h; subst h; decide)
  have hne1 : d1.isEmpty = false := List.isEmpty_eq_false.mpr h1
  have hne2 : nm.isEmpty = false := List.isEmpty_eq_false.mpr h2
  have hne3 : (d2.takeWhile Char.isDigit).isEmpty = false := by
    cases d2 with
    | nil => exact absurd rfl h3
    | cons c t =>
      rw [List.takeWhile_cons, if_pos (hd2 c (by simp))]
      rfl
  simp only [matchActivationAt, if_true]
  rw [hs1.1, hs1.2, hne1]
  have hu1 : expectUnderscore ('_' :: (nm ++ '_' :: d2)) = some (nm ++ '_' :: d2) := by
    simp [expectUnderscore]
  have hu2 : expectUnderscore ('_' :: d2) = some d2 := by
    simp [expectUnderscore]
  rw [hu1]
  simp only [Bool.false_eq_true, if_false]
  rw [hs2.1, hs2.2, hne2, hu2]
  simp only [Bool.false_eq_true, if_false, hne3]

theorem correct_classification_foldl (samples : List (List ℚ × ℕ)) : ∀ a : ℕ,
    samples.foldl (fun acc s => if maxElementIndex s.1 = s.2 then acc + 1 else acc) a =
      a + samples.countP (fun s => maxElementIndex s.1 == s.2) := by
  induction samples with
  | nil => intro a; simp
  | cons s rest ih =>
    intro a
    by_cases h : maxElementIndex s.1 = s.2
    · simp [List.foldl_cons, List.countP_cons, h, ih]
      omega
    · simp [List.foldl_cons, List.countP_cons, h, ih]

/-! ### Claim theorems -/

/-- Claim C1: for layer shapes each below `2 ^ 30` and activation codes in
`0..3`, the encoder produces `(inputWidth <<< 34) + (outputWidth <<< 4) +
activation` and decoding that word by the bit layout recovers the triple
exactly; in particular `inputWidth = 2, outputWidth = 3, activation = 2`
(relu) encodes to `(2 <<< 34) + (3 <<< 4) + 2`. -/
theorem instruction_roundtrip (inW outW act : ℕ)
    (h1 : inW < 2 ^ 30) (h2 : outW < 2 ^ 30) (h3 : act ≤ 3) :
    instructionWord inW outW act = (inW <<< 34) + (outW <<< 4) + act ∧
    decodeInstruction (instructionWord inW outW act) = (inW, outW, act) ∧
    instructionWord 2 3 2 = (2 <<< 34) + (3 <<< 4) + 2 := by
  refine ⟨?_, ?_, ?_⟩
  · simp only [instructionWord, Nat.shiftLeft_eq]
    norm_num
    omega
  · simp only [instructionWord, decodeInstruction, Nat.shiftLeft_eq,
      Nat.shiftRight_eq_div_pow, Prod.mk.injEq]
    norm_num
    omega
  · simp only [instructionWord, Nat.shiftLeft_eq]
    norm_num

/-- Claim C1 witness at `inputWidth = 2, outputWidth = 3, activation = 2`. -/
theorem instruction_roundtrip_witness :
    decodeInstruction (instructionWord 2 3 2) = (2, 3, 2) :=
  (instruction_roundtrip 2 3 2 (by norm_num) (by norm_num) (by norm_num)).2.1

/-- Claim C3: for every 32-bit status value each busy-poll loop exits (treats
the channel as done-or-failed) iff at least one of bits 0, 1, 4, 12, 14 is
set — identically for completion bits (0, 1, 12) and error bits (4, 14),
since the exit condition is one symmetric disjunction over the five bits —
and whenever no polled status ever has one of the five bits set the loop
keeps polling (never exits). -/
theorem poll_exit_iff_bits :
    (∀ status : ℕ, status < 2 ^ 32 →
      (pollContinue status = false ↔
        (status.testBit 0 ∨ status.testBit 1 ∨ status.testBit 4 ∨
         status.testBit 12 ∨ status.testBit 14))) ∧
    (∀ f k fuel s, busyPoll f k fuel = some s → pollContinue s = false) ∧
    (∀ f k fuel, (∀ n, pollContinue (f n) = true) → busyPoll f k fuel = none) := by
  refine ⟨?_, ?_, ?_⟩
  · intro status _
    simp only [pollContinue, and_one_shiftLeft_eq_zero, Bool.and_eq_false_iff]
    cases h0 : status.testBit 0 <;> cases h1 : status.testBit 1 <;>
      cases h4 : status.testBit 4 <;> cases h12 : status.testBit 12 <;>
      cases h14 : status.testBit 14 <;> simp
  · intro f k fuel
    induction fuel generalizing k with
    | zero => intro s h; simp [busyPoll] at h
    | succ fuel ih =>
      intro s h
      simp only [busyPoll] at h
      by_cases hc : pollContinue (f k)
      · rw [if_pos hc] at h
        exact ih (k + 1) s h
      · rw [if_neg hc] at h
        cases h
        exact Bool.eq_false_iff.mpr hc
  · intro f k fuel h
    induction fuel generalizing k with
    | zero => simp [busyPoll]
    | succ fuel ih => simp [busyPoll, h k, ih]

/-- Claim C3 witness: status `0x10` (only bit 4, an error bit, set) exits the
loop just as a completion bit would. -/
theorem poll_exit_iff_bits_witness :
    pollContinue 16 = false ↔
      ((16 : ℕ).testBit 0 ∨ (16 : ℕ).testBit 1 ∨ (16 : ℕ).testBit 4 ∨
       (16 : ℕ).testBit 12 ∨ (16 : ℕ).testBit 14) :=
  poll_exit_iff_bits.1 16 (by norm_num)

/-- Claim C6: for a non-empty output vector the predicted class is the index
of the maximum value with ties resolved to the first occurrence (so
`[0.1, 0.9, 0.9, 0.2]` classifies as 1), and the reported accuracy equals
the fraction of samples whose predicted class equals the label. -/
theorem classification_first_argmax_and_accuracy :
    (∀ l : List ℚ, l ≠ [] →
      maxElementIndex l < l.length ∧
      (∀ v, l.get? (maxElementIndex l) = some v →
        (∀ j w, l.get? j = some w → w ≤ v) ∧
        (∀ j w, j < maxElementIndex l → l.get? j = some w → w < v))) ∧
    maxElementIndex [1/10, 9/10, 9/10, 2/10] = 1 ∧
    (∀ samples : List (List ℚ × ℕ),
      accuracy samples =
        (samples.countP (fun s => maxElementIndex s.1 == s.2) : ℚ) /
          (samples.length : ℚ)) := by
  refine ⟨?_, by norm_num [maxElementIndex, maxElemAux], ?_⟩
  · intro l hl
    match l, hl with
    | x :: xs, _ =>
      have hctx : ∀ k, k < xs.length → (x :: xs).get? (1 + k) = xs.get? k := by
        intro k hk
        simp [Nat.add_comm 1 k]
      have hspec := maxElemAux_spec (x :: xs) xs 0 x 1 hctx (by simp)
        (Nat.zero_lt_one)
        (by intro j w hj hw; interval_cases j <;> simp_all)
        (by intro j w hj hw; omega)
      constructor
      · have := hspec.2.1
        simp only [maxElementIndex, List.length_cons]
        omega
      · intro v hv
        have hv' : v = (maxElemAux xs 0 x 1).2 := by
          have := hspec.1
          simp only [maxElementIndex] at hv
          rw [this] at hv
          exact (Option.some_inj.mp hv).symm
        subst hv'
        refine ⟨?_, ?_⟩
        · intro j w hw
          by_cases hj : j < (x :: xs).length
          · refine hspec.2.2.1 j w ?_ hw
            simp only [List.length_cons] at hj
            omega
          · rw [List.get?_eq_none.mpr (by omega)] at hw
            cases hw
        · intro j w hj hw
          exact hspec.2.2.2 j w hj hw
  · intro samples
    simp [accuracy, correct_classification, correct_classification_foldl]

/-- Claim C6 witness: on the singleton sample `([0.1, 0.9, 0.9, 0.2], 1)` the
predicted class is in bounds and the accuracy is the counted fraction. -/
theorem classification_first_argmax_and_accuracy_witness :
    maxElementIndex [1/10, 9/10, 9/10, 2/10] < 4 :=
  by simpa using
    (classification_first_argmax_and_accuracy.1 [1/10, 9/10, 9/10, 2/10]
      (by simp)).1

/-- Claim C2: for every weight matrix and every `core` in `[1, outputWidth]`,
the tiler reads only in-bounds indices, its index stream is a permutation of
the matrix cells (so reassembling the emitted stream by the inverse tiling
order — placing each emitted value back at the index it was read from —
reproduces the matrix exactly), and `[[1,2,3],[4,5,6]]` with `core = 1`
tiles to `[1,4,2,5,3,6]`. -/
theorem tiler_bounds_and_inverse (core inW outW : ℕ)
    (hc : 1 ≤ core) (hco : core ≤ outW) :
    (∀ j ∈ tileIndices core inW outW, j < inW * outW) ∧
    (tileIndices core inW outW).Perm (List.range (inW * outW)) ∧
    (∀ (data : ℕ → ℚ) (j : ℕ), j < inW * outW →
      (tileWeights core inW outW data).get? ((tileIndices core inW outW).indexOf j) =
        some (data j)) ∧
    tileWeights 1 2 3 (fun j => (j : ℚ) + 1) = [1, 4, 2, 5, 3, 6] := by
  have _hco := hco
  have hperm := tileIndices_perm core inW outW hc
  refine ⟨?_, hperm, ?_, ?_⟩
  · intro j hj
    exact List.mem_range.mp (hperm.mem_iff.mp hj)
  · intro data j hj
    have hmem : j ∈ tileIndices core inW outW :=
      hperm.mem_iff.mpr (List.mem_range.mpr hj)
    unfold tileWeights
    rw [List.get?_map, List.indexOf_get? hmem]
    rfl
  · have h0 : tileOffsets 1 3 0 = [0, 1, 2] := by
      rw [tileOffsets, dif_pos (by omega), tileOffsets, dif_pos (by omega),
        tileOffsets, dif_pos (by omega), tileOffsets, dif_neg (by omega)]
    simp only [tileWeights, tileIndices, h0, blockRange]
    norm_num [List.range_succ, List.flatMap_cons, List.flatMap_append]

/-- Claim C2 witness at `core = 1, inW = 2, outW = 3`: the index stream is a
permutation of the six matrix cells. -/
theorem tiler_bounds_and_inverse_witness :
    (tileIndices 1 2 3).Perm (List.range 6) := by
  simpa using (tiler_bounds_and_inverse 1 2 3 (by norm_num) (by norm_num)).2.1

/-- Claim C4: an identifier of the form `a<digits>_<name>_<digits>` maps its
name segment to code 1 for sigmoid, 2 for relu, 3 for softmax; any
unrecognized name segment and any identifier in which the pattern is not
found yield the lenient default 0, never a failure. -/
theorem activation_mapping :
    (∀ d1 nm d2 : List Char,
      d1 ≠ [] → (∀ c ∈ d1, c.isDigit = true) →
      nm ≠ [] → (∀ c ∈ nm, c.isLower = true) →
      d2 ≠ [] → (∀ c ∈ d2, c.isDigit = true) →
      activationOf ('a' :: (d1 ++ '_' :: (nm ++ '_' :: d2))) =
        (if nm = "sigmoid".toList then 1
         else if nm = "relu".toList then 2
         else if nm = "softmax".toList then 3 else 0)) ∧
    (∀ s, regexSearchActivation s = none → activationOf s = 0) ∧
    (∀ s nm, regexSearchActivation s = some nm →
      nm ≠ "sigmoid".toList → nm ≠ "relu".toList → nm ≠ "softmax".toList →
      activationOf s = 0) := by
  refine ⟨?_, ?_, ?_⟩
  · intro d1 nm d2 h1 hd1 h2 hnm h3 hd2
    have hm := matchActivationAt_pattern d1 nm d2 h1 hd1 h2 hnm h3 hd2
    have hsearch : regexSearchActivation ('a' :: (d1 ++ '_' :: (nm ++ '_' :: d2))) =
        some nm := by
      simp only [regexSearchActivation]
      rw [hm]
    simp only [activationOf, hsearch, Option.getD_some]
  · intro s h
    simp only [activationOf, h, Option.getD_none]
    rw [if_neg (by decide), if_neg (by decide), if_neg (by decide)]
  · intro s nm h hn1 hn2 hn3
    simp only [activationOf, h, Option.getD_some]
    rw [if_neg hn1, if_neg hn2, if_neg hn3]

/-- Claim C4 witness: the identifier `a1_relu_2` maps to activation code 2. -/
theorem activation_mapping_witness :
    activationOf ('a' :: (['1'] ++ '_' :: ("relu".toList ++ '_' :: ['2']))) = 2 := by
  have := activation_mapping.1 ['1'] "relu".toList ['2'] (by decide) (by decide)
    (by decide) (by decide) (by decide) (by decide)
  rw [this]
  decide

/-- Claim C5: one sample iteration performs, in strict order, channel
initialization as configuration then weight then I/O (each reset, halt,
interrupts with complete and error enabled at threshold 0, ready), then the
I/O destination address and length before any source is armed, then arms and
polls configuration MM2S before arming the I/O source, polls I/O MM2S before
arming the weight source, and polls weight MM2S before polling I/O S2MM. -/
theorem per_sample_protocol_order :
    occursBefore (Ev.reset Chan.config) (Ev.halt Chan.config) ∧
    occursBefore (Ev.halt Chan.config) (Ev.setInterrupt Chan.config true true 0) ∧
    occursBefore (Ev.setInterrupt Chan.config true true 0) (Ev.ready Chan.config) ∧
    occursBefore (Ev.ready Chan.config) (Ev.reset Chan.weight) ∧
    occursBefore (Ev.reset Chan.weight) (Ev.halt Chan.weight) ∧
    occursBefore (Ev.halt Chan.weight) (Ev.setInterrupt Chan.weight true true 0) ∧
    occursBefore (Ev.setInterrupt Chan.weight true true 0) (Ev.ready Chan.weight) ∧
    occursBefore (Ev.ready Chan.weight) (Ev.reset Chan.io) ∧
    occursBefore (Ev.reset Chan.io) (Ev.halt Chan.io) ∧
    occursBefore (Ev.halt Chan.io) (Ev.setInterrupt Chan.io true true 0) ∧
    occursBefore (Ev.setInterrupt Chan.io true true 0) (Ev.ready Chan.io) ∧
    occursBefore (Ev.ready Chan.io) (Ev.setDestAddr Chan.io) ∧
    occursBefore (Ev.setDestAddr Chan.io) (Ev.setDestLen Chan.io) ∧
    occursBefore (Ev.setDestLen Chan.io) (Ev.setSrcAddr Chan.config) ∧
    occursBefore (Ev.setDestLen Chan.io) (Ev.setSrcAddr Chan.weight) ∧
    occursBefore (Ev.setDestLen Chan.io) (Ev.setSrcAddr Chan.io) ∧
    occursBefore (Ev.setSrcAddr Chan.config) (Ev.setSrcLen Chan.config) ∧
    occursBefore (Ev.setSrcLen Chan.config) (Ev.pollMM2S Chan.config) ∧
    occursBefore (Ev.pollMM2S Chan.config) (Ev.setSrcAddr Chan.io) ∧
    occursBefore (Ev.setSrcAddr Chan.io) (Ev.setSrcLen Chan.io) ∧
    occursBefore (Ev.setSrcLen Chan.io) (Ev.pollMM2S Chan.io) ∧
    occursBefore (Ev.pollMM2S Chan.io) (Ev.setSrcAddr Chan.weight) ∧
    occursBefore (Ev.setSrcAddr Chan.weight) (Ev.setSrcLen Chan.weight) ∧
    occursBefore (Ev.setSrcLen Chan.weight) (Ev.pollMM2S Chan.weight) ∧
    occursBefore (Ev.pollMM2S Chan.weight) (Ev.pollS2MM Chan.io) := by
  decide

/-- Claim C7: for every set of layers (any representable count), the
configuration channel's buffer begins with exactly one 64-bit word equal to
the number of layers, followed by the per-layer instruction words. -/
theorem config_count_word_first (core : ℕ) (layers : List Layer)
    (h : layers.length < 2 ^ 64) :
    (setup core layers initState).config.stream =
      layers.length :: layers.map encodeLayer := by
  unfold setup
  rw [foldl_loadLayer_config]
  have hfresh : initState.config.stream = [] := by
    simp [initState, SrcBuffer.stream]
  show ((initState.config.write (layers.length % 2 ^ 64)).stream) ++ _ = _
  rw [SrcBuffer.stream_write, hfresh, Nat.mod_eq_of_lt h]
  simp

/-- Claim C7 witness: a single relu layer. -/
theorem config_count_word_first_witness :
    (setup 1 [⟨"a1_relu_1".toList, 2, 3, fun _ => 0⟩] initState).config.stream =
      1 :: [⟨"a1_relu_1".toList, 2, 3, fun _ => 0⟩].map encodeLayer :=
  config_count_word_first 1 [⟨"a1_relu_1".toList, 2, 3, fun _ => 0⟩] (by norm_num)

/-- Claim C8: after setup over a non-empty layer list, `dst_length` is the
last layer's `shape1` (outputWidth), the destination region is zeroed for
exactly `dst_length * 4` bytes, and the whole run performs that zero-fill
before processing the first sample. -/
theorem resultWidth_last_layer_and_zero_fill (core : ℕ) (layers : List Layer)
    (samples : List (List ℚ)) (h : layers ≠ []) :
    (setup core layers initState).dst_length = (layers.getLast h).shape1 ∧
    (∀ i < (setup core layers initState).dst_length * 4,
      (memsetDst (setup core layers initState)).ioDst i = 0) ∧
    (∀ i, (setup core layers initState).dst_length * 4 ≤ i →
      (memsetDst (setup core layers initState)).ioDst i =
        (setup core layers initState).ioDst i) ∧
    runAll core layers samples =
      processSamples (memsetDst (setup core layers initState)) samples := by
  refine ⟨?_, ?_, ?_, rfl⟩
  · exact foldl_loadLayer_dst core layers _ h
  · intro i hi
    simp only [memsetDst]
    rw [if_pos hi]
  · intro i hi
    simp only [memsetDst]
    rw [if_neg (by omega)]

/-- Claim C8 witness: a single layer of output width 3. -/
theorem resultWidth_last_layer_and_zero_fill_witness :
    (setup 1 [⟨"a1_relu_1".toList, 2, 3, fun _ => 0⟩] initState).dst_length = 3 :=
  (resultWidth_last_layer_and_zero_fill 1 [⟨"a1_relu_1".toList, 2, 3, fun _ => 0⟩]
    [] (by simp)).1

/-- Claim C9: the sample loop never writes to the configuration or weight
buffers — after any number of samples both buffers are exactly as setup left
them, and every iteration arms the configuration and weight transfers with
the same source length and byte-for-byte the same streams. -/
theorem config_weight_buffers_frame (st : DriverState) (samples : List (List ℚ)) :
    (processSamples st samples).1.config = st.config ∧
    (processSamples st samples).1.weight = st.weight ∧
    ∀ o ∈ (processSamples st samples).2,
      o.configLen = 8 * st.config.cursor ∧ o.configData = st.config.stream ∧
      o.weightLen = 4 * st.weight.cursor ∧ o.weightData = st.weight.stream := by
  induction samples generalizing st with
  | nil => exact ⟨rfl, rfl, by intro o ho; cases ho⟩
  | cons x xs ih =>
    have hstep : (sampleStep st x).1.config = st.config ∧
        (sampleStep st x).1.weight = st.weight := ⟨rfl, rfl⟩
    have := ih (sampleStep st x).1
    refine ⟨by rw [show (processSamples st (x :: xs)).1 =
        (processSamples (sampleStep st x).1 xs).1 from rfl, this.1, hstep.1], ?_, ?_⟩
    · rw [show (processSamples st (x :: xs)).1 =
        (processSamples (sampleStep st x).1 xs).1 from rfl, this.2.1, hstep.2]
    · intro o ho
      rcases List.mem_cons.mp ho with h | h
      · subst h
        exact ⟨rfl, rfl, rfl, rfl⟩
      · have hrec := this.2.2 o h
        rw [hstep.1, hstep.2] at hrec
        exact hrec

/-- Claim C10: every sample iteration resets the I/O source cursor before
writing the sample's inputs, so the armed I/O source length is exactly
`4 * inputWidth` bytes and the armed stream is exactly the current sample's
input vector, independent of the prior state. -/
theorem io_arm_is_current_sample (st : DriverState) (x : List ℚ) :
    (sampleStep st x).2.ioLen = 4 * x.length ∧
    (sampleStep st x).2.ioData = x := by
  constructor
  · show 4 * (st.ioSrc.resetCursor.writeList x).cursor = 4 * x.length
    rw [SrcBuffer.cursor_writeList]
    simp [SrcBuffer.resetCursor]
  · show (st.ioSrc.resetCursor.writeList x).stream = x
    rw [SrcBuffer.stream_writeList]
    simp [SrcBuffer.resetCursor, SrcBuffer.stream]

end NPU
